import Mathlib

/-!
# Verification of the hamming-crc32 repository

Shallow embedding of the Python sources:

* `src/Hamming/hamming_receptor.py` — interactive Hamming decoder
  (`hamming`, `getParityBits`, `validateInputString`);
* `src/utils/server/hamming_receptor.py` — server-side Hamming decoder with
  ASCII payload extraction (`hamming`, `is_power_of_two`, `binary_to_string`);
* `src/utils/client/fletcher_receptor.py` — Fletcher-16 checksum verification
  (`Fletcher16`).

Bit strings are modelled as `List Nat` whose elements are the numeric values
of the characters (`'0' ↦ 0`, `'1' ↦ 1`); the validator, which is a statement
about arbitrary characters, is modelled over `List Char`.  Python exceptions
(`reduce` over an empty sequence raises `TypeError`, `int('', 2)` raises
`ValueError`) are modelled by `Option.none`.
-/

/-- The inner loop of `getParityBits`, with explicit fuel: while
`2 ** parity_bits < input_length + parity_bits + 1`, increment `parity_bits`. -/
def getParityBitsAux (input_length : Nat) : Nat → Nat → Nat
  | 0, p => p
  | fuel + 1, p =>
    if 2 ^ p < input_length + p + 1 then getParityBitsAux input_length fuel (p + 1) else p

/-- `getParityBits` from `src/Hamming/hamming_receptor.py` (the copies in
`src/utils/{client,server}/hamming_receptor.py` are identical): the loop starts
at `parity_bits = 0`; `input_length + 2` rounds of fuel are enough (proved
below). -/
def getParityBits (input_length : Nat) : Nat :=
  getParityBitsAux input_length (input_length + 2) 0

/-- Minimal big-endian binary digits of `n`, as produced by Python's `format(n, 'b')`
(`0` renders as the single digit `0`).  Fuel-based so that the kernel can
evaluate it: `n` halves at every step, so `n` rounds of fuel are enough. -/
def natBitsAux : Nat → Nat → List Nat
  | 0, _ => []
  | fuel + 1, n => if n = 0 then [] else natBitsAux fuel (n / 2) ++ [n % 2]

/-- Python's `"{0:0{1}b}".format(n, width)`: the minimal binary digits of `n`,
left-padded with `0` to `width` digits. -/
def pyBinFormat (n width : Nat) : List Nat :=
  let ds := if n = 0 then [0] else natBitsAux n n
  List.replicate (width - ds.length) 0 ++ ds

/-- The mathematical `p`-digit big-endian binary representation (used to reason
about `pyBinFormat`): the low digit is `n % 2` and the `p` high digits are the
representation of `n / 2`. -/
def bitsBE : Nat → Nat → List Nat
  | 0, _ => []
  | p + 1, n => bitsBE p (n / 2) ++ [n % 2]

/-- Python's `int(''.join(digits), 2)`: parse a big-endian digit string as a
binary integer. -/
def ofBitsBE (l : List Nat) : Nat :=
  l.foldl (fun acc b => 2 * acc + b) 0

/-- `xorColumns` from `hamming`: `reduce(lambda x, y: int(x) ^ int(y), col_values)`.
`reduce` over an empty sequence raises `TypeError`, modelled by `none`. -/
def xorColumns : List Nat → Option Nat
  | [] => none
  | x :: xs => some (xs.foldl (fun a b => a ^^^ b) x)

/-- The syndrome computation of `hamming` (on the already reversed string `s`):
collect, for every 0-based index `i` with `s[i] == '1'`, the `parity_bits`-digit
binary representation of `i + 1` as a row; XOR each of the `parity_bits`
columns; concatenate the column results and parse them as a binary integer.
The result is `none` exactly when the Python code raises: a column is empty
(`reduce` of an empty sequence, i.e. there are no rows and `parity_bits > 0`)
or there are no columns at all (`int('', 2)`, i.e. `parity_bits = 0`). -/
def hammingSyndrome (s : List Nat) : Option Nat :=
  let parity_bits := getParityBits s.length
  let rows := (List.range s.length).filterMap
    (fun i => if s.getD i 0 == 1 then some (pyBinFormat (i + 1) parity_bits) else none)
  let xor_results := (List.range parity_bits).map
    (fun j => xorColumns (rows.map (fun r => r.getD j 0)))
  if xor_results.isEmpty ∨ none ∈ xor_results then none
  else some (ofBitsBE xor_results.reduceOption)

/-- `correction[j] = '1' if correction[j] == '0' else '0'` (0-based index `j`). -/
def flipBit (l : List Nat) (j : Nat) : List Nat :=
  l.set j (if l.getD j 0 == 0 then 1 else 0)

/-- The tagged outcome of `hamming` in `src/Hamming/hamming_receptor.py`:
the error-free message, the corrected message together with the reported
1-indexed error position, or the "may have multiple errors" report (which
carries no payload). -/
inductive HammingResult where
  | errorFree (msg : List Nat)
  | corrected (pos : Nat) (msg : List Nat)
  | multipleErrors
deriving DecidableEq

/-- `hamming` from `src/Hamming/hamming_receptor.py`: reverse the input,
compute the syndrome; on syndrome `0` report the (reversed-back) message as
error-free; on a nonzero syndrome `≥ length` report possible multiple errors;
otherwise flip the bit at 1-indexed syndrome position and return the
reversed-back corrected message.  `none` models the uncaught exception raised
by the syndrome computation. -/
def hamming (input : List Nat) : Option HammingResult :=
  let s := input.reverse
  match hammingSyndrome s with
  | none => none
  | some xor_int =>
    if xor_int ≠ 0 then
      if xor_int ≥ s.length then some .multipleErrors
      else some (.corrected xor_int ((flipBit s (xor_int - 1)).reverse))
    else some (.errorFree s.reverse)

/-- The flat-loop syndrome the spec's design notes call for: the bitwise XOR of
all 1-indexed positions (in the reversed view) holding a `1` bit. -/
def flatSyndrome (s : List Nat) : Nat :=
  (List.range s.length).foldl (fun acc i => if s.getD i 0 == 1 then acc ^^^ (i + 1) else acc) 0

/-- `validateInputString` (identical in `src/Hamming/hamming_receptor.py` and
`src/utils/client/fletcher_receptor.py`): the set of characters of the input
equals `{'0','1'}`, or equals `{'0'}`, or equals `{'1'}`. -/
def validateInputString (input_string : List Char) : Bool :=
  let binary_set : Finset Char := {'0', '1'}
  let input_set : Finset Char := input_string.toFinset
  decide (binary_set = input_set) || decide (input_set = {'0'}) || decide (input_set = {'1'})

/-- `is_power_of_two` from `src/utils/server/hamming_receptor.py`:
`(n & (n - 1)) == 0 and n != 0`. -/
def is_power_of_two (n : Nat) : Bool :=
  (n &&& (n - 1)) == 0 && n != 0

/-- `binary_to_string` from `src/utils/server/hamming_receptor.py`, keeping the
code points as numbers: `chr(int(i, 2))` for each 8-bit (or shorter trailing)
chunk `i`. -/
def binary_to_string (bits : List (List Nat)) : List Nat :=
  bits.map ofBitsBE

/-- The slicing loop `[binary_data_string[i:i + 8] for i in range(0, len, 8)]`,
with explicit fuel (every step removes at least one element, so `l.length`
rounds are enough). -/
def chunks8Aux : Nat → List Nat → List (List Nat)
  | 0, _ => []
  | _ + 1, [] => []
  | fuel + 1, x :: xs => (x :: xs).take 8 :: chunks8Aux fuel ((x :: xs).drop 8)

/-- Split a list into consecutive chunks of 8 (the last chunk may be shorter). -/
def chunks8 (l : List Nat) : List (List Nat) :=
  chunks8Aux l.length l

/-- The tagged outcome of the server-side `hamming`
(`src/utils/server/hamming_receptor.py`): the decoded ASCII code points on an
error-free message, the corrected message with its reported 1-indexed error
position (the Python function prints this and returns `None`), or the
"may have multiple errors" report. -/
inductive ServerResult where
  | text (codes : List Nat)
  | corrected (pos : Nat) (msg : List Nat)
  | multipleErrors
deriving DecidableEq

/-- `hamming` from `src/utils/server/hamming_receptor.py`: same syndrome logic
as the client decoder; on an error-free message it additionally drops the bits
at power-of-two 1-indexed positions of the reversed string, joins the remaining
data bits, slices them into 8-bit chunks and converts each chunk to a code
point. -/
def hammingServer (input : List Nat) : Option ServerResult :=
  let s := input.reverse
  match hammingSyndrome s with
  | none => none
  | some xor_int =>
    if xor_int ≠ 0 then
      if xor_int ≥ s.length then some .multipleErrors
      else some (.corrected xor_int ((flipBit s (xor_int - 1)).reverse))
    else
      let data_bits := (List.range s.length).filterMap
        (fun i => if is_power_of_two (i + 1) then none else some (s.getD i 0))
      some (.text (binary_to_string (chunks8 data_bits)))

/-- The `sum1`/`sum2` accumulation loop of `Fletcher16`: for each data unit in
order, `sum1 = (sum1 + value) % 255` and then `sum2 = (sum2 + sum1) % 255`. -/
def fletcherSums (payload : List Nat) : Nat × Nat :=
  payload.foldl (fun sums value =>
    ((sums.1 + value) % 255, (sums.2 + (sums.1 + value) % 255) % 255)) (0, 0)

/-- The checksum field `Fletcher16` computes over a payload:
`(sum2 << (size // 2) | sum1) & mask` rendered as a `size`-digit zero-padded
binary string, with `mask = (1 << size) - 1`. -/
def fletcherChecksumField (payload : List Nat) (size : Nat := 16) : List Nat :=
  let sums := fletcherSums payload
  let mask := (1 <<< size) - 1
  pyBinFormat (((sums.2 <<< (size / 2)) ||| sums.1) &&& mask) size

/-- The observable outcome of `Fletcher16`: the payload and trailing checksum
field it splits the input into, the checksum it computes, and whether it
reports the message as valid. -/
structure FletcherOutcome where
  payload : List Nat
  original : List Nat
  computed : List Nat
  valid : Bool
deriving DecidableEq

/-- `Fletcher16` from `src/utils/client/fletcher_receptor.py`: split the input
into `payload = input[:-size]` and `original_checksum = input[-size:]`, run the
running-sum loop over the payload, render the computed checksum, and report the
message valid exactly when the computed checksum equals the trailing field. -/
def Fletcher16 (input : List Nat) (size : Nat := 16) : FletcherOutcome :=
  let original_checksum := input.drop (input.length - size)
  let payload := input.take (input.length - size)
  let checksum := fletcherChecksumField payload size
  { payload := payload
    original := original_checksum
    computed := checksum
    valid := checksum == original_checksum }

/-- Power-of-two test as the spec words it ("positions 1, 2, 4, 8, …"):
`n = 2^k` for some `k` (searched below `n + 1`, which suffices since
`k < 2^k`). -/
def isPow2Spec (n : Nat) : Bool :=
  (List.range (n + 1)).any (fun k => n == 2 ^ k)

/-- Modelled from the spec's words for §4.1 step 7 (payload extraction):
strip bits at power-of-two positions from the reversed string, keep the rest in
order, group into 8-bit chunks, and read each chunk as an ASCII code point with
a short trailing chunk *zero-padded on the right*. -/
def specTextPadRight (input : List Nat) : List Nat :=
  let s := input.reverse
  let data_bits := (List.range s.length).filterMap
    (fun i => if isPow2Spec (i + 1) then none else some (s.getD i 0))
  (chunks8 data_bits).map (fun c => ofBitsBE (c ++ List.replicate (8 - c.length) 0))

/-- The same payload extraction with the trailing chunk read as a plain binary
integer (equivalently: zero-padded on the *left*); stated with `Nat.ofDigits`
over the little-endian digits as an independent formulation. -/
def specTextPadLeft (input : List Nat) : List Nat :=
  let s := input.reverse
  let data_bits := (List.range s.length).filterMap
    (fun i => if isPow2Spec (i + 1) then none else some (s.getD i 0))
  (chunks8 data_bits).map (fun c => Nat.ofDigits 2 c.reverse)

/-- The `k`-th binary digit of `n` as a number (`0` or `1`), used to reason
about the column XOR computation. -/
def tBit (n k : Nat) : Nat :=
  if n.testBit k then 1 else 0

/-! ## Lemmas about `getParityBits` -/

lemma parity_cond_succ (L p : Nat) (h : L + p + 1 ≤ 2 ^ p) : L + (p + 1) + 1 ≤ 2 ^ (p + 1) := by
  calc L + (p + 1) + 1 ≤ (L + p + 1) + (L + p + 1) := by omega
  _ ≤ 2 ^ p + 2 ^ p := by omega
  _ = 2 ^ (p + 1) := by ring

lemma getParityBitsAux_spec (L : Nat) :
    ∀ fuel p, L + (p + fuel) + 1 ≤ 2 ^ (p + fuel) →
      (L + getParityBitsAux L fuel p + 1 ≤ 2 ^ getParityBitsAux L fuel p ∧
       p ≤ getParityBitsAux L fuel p ∧
       ∀ q, p ≤ q → L + q + 1 ≤ 2 ^ q → getParityBitsAux L fuel p ≤ q) := by
  intro fuel
  induction fuel with
  | zero =>
    intro p hp
    simp only [getParityBitsAux]
    refine ⟨by simpa using hp, le_refl _, fun q hq _ => hq⟩
  | succ fuel ih =>
    intro p hp
    simp only [getParityBitsAux]
    by_cases hcond : 2 ^ p < L + p + 1
    · rw [if_pos hcond]
      have hrec := ih (p + 1) (by
        have : p + 1 + fuel = p + (fuel + 1) := by omega
        rw [this]; exact hp)
      refine ⟨hrec.1, by omega, fun q hq hq2 => ?_⟩
      have hqp : p + 1 ≤ q := by
        rcases Nat.eq_or_lt_of_le hq with h | h
        · exfalso; rw [← h] at hq2; omega
        · omega
      exact hrec.2.2 q hqp hq2
    · rw [if_neg hcond]
      exact ⟨by omega, le_refl _, fun q hq _ => hq⟩

lemma getParityBits_fuel_enough (L : Nat) : L + (0 + (L + 2)) + 1 ≤ 2 ^ (0 + (L + 2)) := by
  have h0 : 0 + (L + 2) = L + 2 := by omega
  rw [h0]
  have h1 : L + 1 < 2 ^ (L + 1) := Nat.lt_two_pow (L + 1)
  have h2 : 2 ^ (L + 2) = 2 * 2 ^ (L + 1) := by ring
  omega

lemma getParityBits_cond (L : Nat) : L + getParityBits L + 1 ≤ 2 ^ getParityBits L :=
  (getParityBitsAux_spec L (L + 2) 0 (getParityBits_fuel_enough L)).1

lemma getParityBits_min (L q : Nat) (h : L + q + 1 ≤ 2 ^ q) : getParityBits L ≤ q :=
  (getParityBitsAux_spec L (L + 2) 0 (getParityBits_fuel_enough L)).2.2 q (Nat.zero_le q) h

lemma length_lt_two_pow_parity (L : Nat) : L < 2 ^ getParityBits L := by
  have := getParityBits_cond L; omega

lemma getParityBits_pos (L : Nat) (h : 1 ≤ L) : 1 ≤ getParityBits L := by
  by_contra hp
  have hp0 : getParityBits L = 0 := by omega
  have := getParityBits_cond L
  rw [hp0] at this
  simp at this
  omega

/-! ## Lemmas about binary digit strings -/

lemma bitsBE_length (p : Nat) : ∀ n, (bitsBE p n).length = p := by
  induction p with
  | zero => intro n; simp [bitsBE]
  | succ p ih => intro n; simp [bitsBE, ih]

lemma bitsBE_zero (p : Nat) : bitsBE p 0 = List.replicate p 0 := by
  induction p with
  | zero => simp [bitsBE]
  | succ p ih => simp [bitsBE, ih, List.replicate_succ']

lemma ofBitsBE_append (l : List Nat) (b : Nat) : ofBitsBE (l ++ [b]) = 2 * ofBitsBE l + b := by
  simp [ofBitsBE, List.foldl_append]

lemma mod_two_pow_succ (n p : Nat) : n % 2 ^ (p + 1) = 2 * (n / 2 % 2 ^ p) + n % 2 := by
  have h1 : n = 2 * (n / 2) + n % 2 := (Nat.div_add_mod' n 2).symm ▸ by omega
  have h2 : n / 2 = 2 ^ p * (n / 2 / 2 ^ p) + n / 2 % 2 ^ p := by
    rw [Nat.div_add_mod]
  have hmod : n / 2 % 2 ^ p < 2 ^ p := Nat.mod_lt (n / 2) (by positivity)
  have h2p : 2 ^ (p + 1) = 2 * 2 ^ p := by ring
  have hlt : 2 * (n / 2 % 2 ^ p) + n % 2 < 2 ^ (p + 1) := by omega
  calc n % 2 ^ (p + 1)
      = (2 * (n / 2 % 2 ^ p) + n % 2 + 2 ^ (p + 1) * (n / 2 / 2 ^ p)) % 2 ^ (p + 1) := by
        congr 1
        have h3 : 2 ^ (p + 1) * (n / 2 / 2 ^ p) = 2 * (2 ^ p * (n / 2 / 2 ^ p)) := by
          rw [h2p]; ring
        omega
    _ = (2 * (n / 2 % 2 ^ p) + n % 2) % 2 ^ (p + 1) := Nat.add_mul_mod_self_left _ _ _
    _ = 2 * (n / 2 % 2 ^ p) + n % 2 := Nat.mod_eq_of_lt hlt

lemma ofBitsBE_bitsBE (p : Nat) : ∀ n, ofBitsBE (bitsBE p n) = n % 2 ^ p := by
  induction p with
  | zero => intro n; simp [bitsBE, ofBitsBE, Nat.mod_one]
  | succ p ih =>
    intro n
    rw [show bitsBE (p + 1) n = bitsBE p (n / 2) ++ [n % 2] from rfl,
      ofBitsBE_append, ih, mod_two_pow_succ]

lemma natBitsAux_zero (fuel : Nat) : natBitsAux fuel 0 = [] := by
  cases fuel <;> simp [natBitsAux]

lemma natBitsAux_pad :
    ∀ fuel n p, n ≤ fuel → 1 ≤ n → n < 2 ^ p →
      List.replicate (p - (natBitsAux fuel n).length) 0 ++ natBitsAux fuel n = bitsBE p n := by
  intro fuel
  induction fuel with
  | zero => intro n p h1 h2 _; omega
  | succ fuel ih =>
    intro n p hfuel hn hnp
    have hp : 1 ≤ p := by
      by_contra hp0
      have : p = 0 := by omega
      rw [this] at hnp
      simp at hnp
      omega
    obtain ⟨q, rfl⟩ : ∃ q, p = q + 1 := ⟨p - 1, by omega⟩
    rw [show natBitsAux (fuel + 1) n = if n = 0 then [] else natBitsAux fuel (n / 2) ++ [n % 2]
      from rfl, if_neg (by omega)]
    rw [show bitsBE (q + 1) n = bitsBE q (n / 2) ++ [n % 2] from rfl]
    by_cases hhalf : n / 2 = 0
    · have hn1 : n = 1 := by omega
      subst hn1
      rw [hhalf, natBitsAux_zero, bitsBE_zero]
      simp only [List.nil_append, List.length_cons, List.length_nil]
      have hq : q + 1 - (0 + 1) = q := by omega
      rw [hq]
    · have hrec := ih (n / 2) q (by
        have : n / 2 < n := Nat.div_lt_self (by omega) (by omega)
        omega) (by omega) (by
        rw [Nat.div_lt_iff_lt_mul (by omega)]
        calc n < 2 ^ (q + 1) := hnp
        _ = 2 ^ q * 2 := by ring)
      rw [List.length_append, List.length_cons, List.length_nil]
      have hlen : q + 1 - ((natBitsAux fuel (n / 2)).length + (0 + 1)) =
          q - (natBitsAux fuel (n / 2)).length := by omega
      rw [hlen, ← List.append_assoc, hrec]

lemma pyBinFormat_eq_bitsBE (n p : Nat) (hp : 1 ≤ p) (hn : n < 2 ^ p) :
    pyBinFormat n p = bitsBE p n := by
  unfold pyBinFormat
  by_cases h0 : n = 0
  · subst h0
    rw [if_pos rfl, bitsBE_zero]
    simp only [List.length_cons, List.length_nil]
    rw [show (List.replicate (p - (0 + 1)) 0 ++ [0] : List Nat) =
      List.replicate (p - 1) 0 ++ [0] from by congr 1]
    rw [← List.replicate_succ']
    congr 1
    omega
  · rw [if_neg h0]
    exact natBitsAux_pad n n p (le_refl n) (by omega) hn

lemma pyBinFormat_length (n p : Nat) (hp : 1 ≤ p) (hn : n < 2 ^ p) :
    (pyBinFormat n p).length = p := by
  rw [pyBinFormat_eq_bitsBE n p hp hn, bitsBE_length]

lemma tBit_xor (a b k : Nat) : tBit a k ^^^ tBit b k = tBit (a ^^^ b) k := by
  unfold tBit
  rw [Nat.testBit_xor]
  cases ha : a.testBit k <;> cases hb : b.testBit k <;> simp

lemma tBit_zero_eq_mod_two (n : Nat) : tBit n 0 = n % 2 := by
  unfold tBit
  rw [Nat.testBit_zero]
  rcases Nat.mod_two_eq_zero_or_one n with h | h <;> simp [h]

lemma bitsBE_eq_map (p : Nat) : ∀ n, bitsBE p n = (List.range p).map (fun j => tBit n (p - 1 - j)) := by
  induction p with
  | zero => intro n; simp [bitsBE]
  | succ p ih =>
    intro n
    rw [show bitsBE (p + 1) n = bitsBE p (n / 2) ++ [n % 2] from rfl, ih,
      List.range_succ, List.map_append]
    congr 1
    · apply List.map_congr_left
      intro j hj
      rw [List.mem_range] at hj
      unfold tBit
      rw [show p + 1 - 1 - j = (p - 1 - j) + 1 from by omega, Nat.testBit_add_one]
    · simp [tBit_zero_eq_mod_two]

lemma getD_map_range (g : Nat → Nat) (p j : Nat) (hj : j < p) :
    ((List.range p).map g).getD j 0 = g j := by
  rw [List.getD_eq_getElem?_getD, List.getElem?_map, List.getElem?_range hj]
  rfl

lemma getD_bitsBE (n p j : Nat) (hj : j < p) :
    (bitsBE p n).getD j 0 = tBit n (p - 1 - j) := by
  rw [bitsBE_eq_map, getD_map_range _ _ _ hj]

/-! ## The tabular column-XOR syndrome equals the flat XOR of 1-positions -/

lemma foldl_xor_map_tBit (vs : List Nat) :
    ∀ k x0, (vs.map (fun v => tBit v k)).foldl (fun a b => a ^^^ b) (tBit x0 k) =
      tBit (vs.foldl (fun a b => a ^^^ b) x0) k := by
  induction vs with
  | nil => intro k x0; rfl
  | cons v vs ih =>
    intro k x0
    simp only [List.map_cons, List.foldl_cons]
    rw [tBit_xor, ih]

lemma foldl_xor_lt_two_pow (P : Nat) (vs : List Nat) :
    ∀ x0, x0 < 2 ^ P → (∀ v ∈ vs, v < 2 ^ P) →
      vs.foldl (fun a b => a ^^^ b) x0 < 2 ^ P := by
  induction vs with
  | nil => intro x0 h _; exact h
  | cons v vs ih =>
    intro x0 h hvs
    simp only [List.foldl_cons]
    exact ih _ (Nat.xor_lt_two_pow h (hvs v (List.mem_cons_self v vs)))
      (fun w hw => hvs w (List.mem_cons_of_mem v hw))

lemma foldl_if_xor_eq_filter (c : Nat → Bool) (g : Nat → Nat) (l : List Nat) :
    ∀ a, l.foldl (fun acc i => if c i then acc ^^^ g i else acc) a =
      ((l.filter c).map g).foldl (fun x y => x ^^^ y) a := by
  induction l with
  | nil => intro a; rfl
  | cons x xs ih =>
    intro a
    rw [List.foldl_cons, List.filter_cons]
    by_cases hc : c x
    · rw [if_pos hc, if_pos hc, List.map_cons, List.foldl_cons, ih]
    · rw [if_neg hc, if_neg (by simpa using hc), ih]

lemma filterMap_if {α : Type} (c : Nat → Bool) (f : Nat → α) (l : List Nat) :
    l.filterMap (fun i => if c i then some (f i) else none) = (l.filter c).map f := by
  induction l with
  | nil => rfl
  | cons x xs ih =>
    rw [List.filterMap_cons, List.filter_cons]
    by_cases hc : c x
    · rw [if_pos hc, if_pos hc, ih, List.map_cons]
    · rw [if_neg hc, if_neg (by simpa using hc), ih]

lemma filterMap_ifnot {α : Type} (c : Nat → Bool) (f : Nat → α) (l : List Nat) :
    l.filterMap (fun i => if c i then none else some (f i)) =
      (l.filter (fun i => !c i)).map f := by
  induction l with
  | nil => rfl
  | cons x xs ih =>
    rw [List.filterMap_cons, List.filter_cons]
    by_cases hc : c x
    · rw [if_pos hc, if_neg (by simp [hc]), ih]
    · rw [if_neg hc, if_pos (by simp [hc]), ih, List.map_cons]

lemma reduceOption_map_some {α β : Type} (f : α → β) (l : List α) :
    (l.map (fun x => some (f x))).reduceOption = l.map f := by
  induction l with
  | nil => rfl
  | cons x xs ih =>
    rw [List.map_cons, List.reduceOption_cons_of_some, ih, List.map_cons]

lemma flatSyndrome_eq_filter (s : List Nat) :
    flatSyndrome s =
      (((List.range s.length).filter (fun i => s.getD i 0 == 1)).map (fun i => i + 1)).foldl
        (fun x y => x ^^^ y) 0 := by
  unfold flatSyndrome
  exact foldl_if_xor_eq_filter _ _ _ 0

lemma columns_xor_of_values (p : Nat) (v0 : Nat) (vs : List Nat) :
    (List.range p).map
        (fun j => xorColumns (((v0 :: vs).map (fun v => bitsBE p v)).map (fun r => r.getD j 0))) =
      (List.range p).map
        (fun j => some (tBit (vs.foldl (fun a b => a ^^^ b) v0) (p - 1 - j))) := by
  apply List.map_congr_left
  intro j hj
  rw [List.mem_range] at hj
  rw [List.map_map]
  have hcol : (v0 :: vs).map ((fun r => r.getD j 0) ∘ fun v => bitsBE p v) =
      (v0 :: vs).map (fun v => tBit v (p - 1 - j)) := by
    apply List.map_congr_left
    intro v _
    exact getD_bitsBE v p j hj
  rw [hcol, List.map_cons]
  show some ((vs.map (fun v => tBit v (p - 1 - j))).foldl (fun a b => a ^^^ b)
    (tBit v0 (p - 1 - j))) = _
  rw [foldl_xor_map_tBit]

lemma hammingSyndrome_eq_flat (s : List Nat) (h : ∃ i, i < s.length ∧ s.getD i 0 = 1) :
    hammingSyndrome s = some (flatSyndrome s) := by
  obtain ⟨i0, hi0, hbit⟩ := h
  have hL : 1 ≤ s.length := by omega
  have hp1 : 1 ≤ getParityBits s.length := getParityBits_pos _ hL
  have hLp : s.length < 2 ^ getParityBits s.length := length_lt_two_pow_parity _
  unfold hammingSyndrome
  simp only []
  rw [filterMap_if]
  set p := getParityBits s.length with hpdef
  set ones := (List.range s.length).filter (fun i => s.getD i 0 == 1) with honesdef
  have hones_lt : ∀ i ∈ ones, i < s.length := by
    intro i hi
    rw [honesdef, List.mem_filter, List.mem_range] at hi
    exact hi.1
  have hrows : ones.map (fun i => pyBinFormat (i + 1) p) =
      (ones.map (fun i => i + 1)).map (fun v => bitsBE p v) := by
    rw [List.map_map]
    apply List.map_congr_left
    intro i hi
    exact pyBinFormat_eq_bitsBE (i + 1) p hp1 (by have := hones_lt i hi; omega)
  have hmem : i0 ∈ ones := by
    rw [honesdef, List.mem_filter, List.mem_range]
    exact ⟨hi0, by simpa using hbit⟩
  rw [hrows]
  cases hcons : ones.map (fun i => i + 1) with
  | nil =>
    exfalso
    have : i0 + 1 ∈ ones.map (fun i => i + 1) := List.mem_map_of_mem _ hmem
    rw [hcons] at this
    exact absurd this (List.not_mem_nil _)
  | cons v0 vs =>
    rw [columns_xor_of_values]
    have hne : ¬(((List.range p).map
        (fun j => some (tBit (vs.foldl (fun a b => a ^^^ b) v0) (p - 1 - j)))).isEmpty = true ∨
        none ∈ (List.range p).map
          (fun j => some (tBit (vs.foldl (fun a b => a ^^^ b) v0) (p - 1 - j)))) := by
      push_neg
      constructor
      · intro habs
        rw [List.isEmpty_iff, List.map_eq_nil_iff, List.range_eq_nil] at habs
        omega
      · intro habs
        rw [List.mem_map] at habs
        obtain ⟨j, _, hj⟩ := habs
        exact Option.noConfusion hj
    rw [if_neg hne, reduceOption_map_some, ← bitsBE_eq_map, ofBitsBE_bitsBE]
    have hXlt : vs.foldl (fun a b => a ^^^ b) v0 < 2 ^ p := by
      apply foldl_xor_lt_two_pow
      · have : v0 ∈ ones.map (fun i => i + 1) := by rw [hcons]; exact List.mem_cons_self _ _
        rw [List.mem_map] at this
        obtain ⟨i, hi, rfl⟩ := this
        have := hones_lt i hi
        omega
      · intro v hv
        have : v ∈ ones.map (fun i => i + 1) := by
          rw [hcons]; exact List.mem_cons_of_mem _ hv
        rw [List.mem_map] at this
        obtain ⟨i, hi, rfl⟩ := this
        have := hones_lt i hi
        omega
    rw [Nat.mod_eq_of_lt hXlt, flatSyndrome_eq_filter, ← honesdef, hcons, List.foldl_cons,
      Nat.zero_xor]

/-! ## Syndrome exceptions and flipping a single bit -/

lemma hammingSyndrome_some_imp (s : List Nat) (x : Nat) (h : hammingSyndrome s = some x) :
    ∃ i, i < s.length ∧ s.getD i 0 = 1 := by
  by_contra habs
  push_neg at habs
  have hones : (List.range s.length).filter (fun i => s.getD i 0 == 1) = [] := by
    rw [List.filter_eq_nil_iff]
    intro i hi
    rw [List.mem_range] at hi
    simpa using habs i hi
  unfold hammingSyndrome at h
  simp only [] at h
  rw [filterMap_if, hones] at h
  simp only [List.map_nil] at h
  by_cases hp : getParityBits s.length = 0
  · rw [hp] at h
    simp at h
  · have hmem : none ∈ (List.range (getParityBits s.length)).map
        (fun _ : Nat => xorColumns ([] : List Nat)) := by
      rw [List.mem_map]
      exact ⟨0, List.mem_range.mpr (by omega), rfl⟩
    rw [if_pos (Or.inr hmem)] at h
    exact Option.noConfusion h

lemma flatSyndrome_zero_of_no_ones (s : List Nat) (h : ∀ i, i < s.length → s.getD i 0 ≠ 1) :
    flatSyndrome s = 0 := by
  rw [flatSyndrome_eq_filter]
  have hones : (List.range s.length).filter (fun i => s.getD i 0 == 1) = [] := by
    rw [List.filter_eq_nil_iff]
    intro i hi
    rw [List.mem_range] at hi
    simpa using h i hi
  rw [hones]
  rfl

lemma getD_set_self (l : List Nat) (j v : Nat) (hj : j < l.length) :
    (l.set j v).getD j 0 = v := by
  rw [List.getD_eq_getElem?_getD, List.getElem?_set, if_pos rfl, if_pos hj]
  rfl

lemma getD_set_ne (l : List Nat) (i j v : Nat) (hij : i ≠ j) :
    (l.set i v).getD j 0 = l.getD j 0 := by
  rw [List.getD_eq_getElem?_getD, List.getElem?_set, if_neg hij, ← List.getD_eq_getElem?_getD]

lemma set_getD_self (l : List Nat) : ∀ j, j < l.length → l.set j (l.getD j 0) = l := by
  induction l with
  | nil => intro j hj; simp at hj
  | cons x xs ih =>
    intro j hj
    cases j with
    | zero => rw [List.getD_cons_zero, List.set_cons_zero]
    | succ j =>
      rw [List.getD_cons_succ, List.set_cons_succ, ih j (by simpa using hj)]

lemma flipBit_length (l : List Nat) (j : Nat) : (flipBit l j).length = l.length := by
  unfold flipBit
  rw [List.length_set]

lemma flipBit_getD_same (l : List Nat) (j : Nat) (hj : j < l.length) :
    (flipBit l j).getD j 0 = if l.getD j 0 == 0 then 1 else 0 := by
  unfold flipBit
  exact getD_set_self l j _ hj

lemma flipBit_getD_ne (l : List Nat) (i j : Nat) (hij : i ≠ j) :
    (flipBit l i).getD j 0 = l.getD j 0 := by
  unfold flipBit
  exact getD_set_ne l i j _ hij

lemma flipBit_getD_changes (l : List Nat) (j : Nat) (hj : j < l.length) :
    (flipBit l j).getD j 0 ≠ l.getD j 0 := by
  rw [flipBit_getD_same l j hj]
  by_cases h0 : l.getD j 0 = 0
  · rw [h0]; simp
  · rw [if_neg (by simpa using h0)]; omega

lemma flipBit_flipBit (l : List Nat) (j : Nat) (hj : j < l.length)
    (hbit : l.getD j 0 = 0 ∨ l.getD j 0 = 1) : flipBit (flipBit l j) j = l := by
  rcases hbit with h | h
  · have hv1 : flipBit l j = l.set j 1 := by
      unfold flipBit; rw [h]; exact rfl
    have hv2 : flipBit (l.set j 1) j = (l.set j 1).set j 0 := by
      unfold flipBit; rw [getD_set_self l j 1 hj]; exact rfl
    rw [hv1, hv2, List.set_set]
    conv_rhs => rw [← set_getD_self l j hj]
    rw [h]
  · have hv1 : flipBit l j = l.set j 0 := by
      unfold flipBit; rw [h]; exact rfl
    have hv2 : flipBit (l.set j 0) j = (l.set j 0).set j 1 := by
      unfold flipBit; rw [getD_set_self l j 0 hj]; exact rfl
    rw [hv1, hv2, List.set_set]
    conv_rhs => rw [← set_getD_self l j hj]
    rw [h]

lemma foldl_xor_init (c : Nat → Nat) (P : Nat → Bool) (l : List Nat) :
    ∀ a d, l.foldl (fun acc i => if P i then acc ^^^ c i else acc) (a ^^^ d) =
      (l.foldl (fun acc i => if P i then acc ^^^ c i else acc) a) ^^^ d := by
  induction l with
  | nil => intro a d; rfl
  | cons x xs ih =>
    intro a d
    simp only [List.foldl_cons]
    by_cases hx : P x
    · rw [if_pos hx, if_pos hx, show a ^^^ d ^^^ c x = a ^^^ c x ^^^ d from by
        rw [Nat.xor_assoc, Nat.xor_assoc, Nat.xor_comm d (c x)], ih]
    · rw [if_neg hx, if_neg hx, ih]

lemma flatSyndrome_flip (s : List Nat) (j : Nat) (hj : j < s.length)
    (hbit : s.getD j 0 = 0 ∨ s.getD j 0 = 1) :
    flatSyndrome (flipBit s j) = flatSyndrome s ^^^ (j + 1) := by
  have hlen : (flipBit s j).length = s.length := flipBit_length s j
  have hsplit : List.range s.length =
      (List.range j ++ [j]) ++ (List.range (s.length - (j + 1))).map (fun x => (j + 1) + x) := by
    rw [← List.range_succ, ← List.range_add]
    congr 1
    omega
  have hfix : ∀ (t : List Nat), t.getD j 0 = t.getD j 0 := fun _ => rfl
  unfold flatSyndrome
  rw [hlen, hsplit]
  rw [List.foldl_append, List.foldl_append, List.foldl_append, List.foldl_append]
  -- the first segment (indices < j) is identical for both strings
  have hseg1 : ∀ a, (List.range j).foldl
      (fun acc i => if (flipBit s j).getD i 0 == 1 then acc ^^^ (i + 1) else acc) a =
      (List.range j).foldl (fun acc i => if s.getD i 0 == 1 then acc ^^^ (i + 1) else acc) a := by
    intro a
    apply List.foldl_ext
    intro acc i hi
    rw [List.mem_range] at hi
    rw [flipBit_getD_ne s j i (by omega)]
  -- the last segment (indices > j) is identical for both strings
  have hseg3 : ∀ a, ((List.range (s.length - (j + 1))).map (fun x => (j + 1) + x)).foldl
      (fun acc i => if (flipBit s j).getD i 0 == 1 then acc ^^^ (i + 1) else acc) a =
      ((List.range (s.length - (j + 1))).map (fun x => (j + 1) + x)).foldl
      (fun acc i => if s.getD i 0 == 1 then acc ^^^ (i + 1) else acc) a := by
    intro a
    apply List.foldl_ext
    intro acc i hi
    rw [List.mem_map] at hi
    obtain ⟨x, _, rfl⟩ := hi
    rw [flipBit_getD_ne s j _ (by omega)]
  rw [hseg1]
  set F1 := (List.range j).foldl
    (fun acc i => if s.getD i 0 == 1 then acc ^^^ (i + 1) else acc) 0 with hF1
  -- the middle element j: the flipped bit
  rcases hbit with h | h
  · -- bit was 0: flipped bit is 1, so the flipped fold gains `j + 1`
    have hmid' : (List.foldl
        (fun acc i => if (flipBit s j).getD i 0 == 1 then acc ^^^ (i + 1) else acc) F1 [j]) =
        F1 ^^^ (j + 1) := by
      simp only [List.foldl_cons, List.foldl_nil]
      rw [flipBit_getD_same s j hj, h]
      rfl
    have hmid : (List.foldl
        (fun acc i => if s.getD i 0 == 1 then acc ^^^ (i + 1) else acc) F1 [j]) = F1 := by
      simp only [List.foldl_cons, List.foldl_nil]
      rw [h]
      rfl
    rw [hmid', hmid, hseg3, foldl_xor_init]
  · -- bit was 1: flipped bit is 0, so the flipped fold loses `j + 1`
    have hmid' : (List.foldl
        (fun acc i => if (flipBit s j).getD i 0 == 1 then acc ^^^ (i + 1) else acc) F1 [j]) =
        F1 := by
      simp only [List.foldl_cons, List.foldl_nil]
      rw [flipBit_getD_same s j hj, h]
      rfl
    have hmid : (List.foldl
        (fun acc i => if s.getD i 0 == 1 then acc ^^^ (i + 1) else acc) F1 [j]) =
        F1 ^^^ (j + 1) := by
      simp only [List.foldl_cons, List.foldl_nil]
      rw [h]
      rfl
    rw [hmid', hmid, hseg3]
    conv_lhs => rw [show F1 = (F1 ^^^ (j + 1)) ^^^ (j + 1) from (Nat.xor_cancel_right _ _).symm]
    rw [foldl_xor_init]

/-! ## Power-of-two positions -/

lemma exists_testBit_of_ne_zero : ∀ n, n ≠ 0 → ∃ i, n.testBit i = true := by
  intro n
  induction n using Nat.strong_induction_on with
  | _ n ih =>
    intro hn
    rcases Nat.mod_two_eq_zero_or_one n with h | h
    · have h2 : n / 2 ≠ 0 := by omega
      obtain ⟨i, hi⟩ := ih (n / 2) (Nat.div_lt_self (by omega) (by omega)) h2
      exact ⟨i + 1, by rw [Nat.testBit_add_one]; exact hi⟩
    · exact ⟨0, by rw [Nat.testBit_zero]; simp [h]⟩

lemma and_eq_zero_iff_testBit (a b : Nat) :
    a &&& b = 0 ↔ ∀ i, ¬(a.testBit i = true ∧ b.testBit i = true) := by
  constructor
  · intro h i ⟨ha, hb⟩
    have : (a &&& b).testBit i = true := by rw [Nat.testBit_and, ha, hb]; rfl
    rw [h, Nat.zero_testBit] at this
    exact Bool.noConfusion this
  · intro h
    apply Nat.eq_of_testBit_eq
    intro i
    rw [Nat.zero_testBit, Nat.testBit_and]
    cases ha : a.testBit i <;> cases hb : b.testBit i <;> first
      | rfl
      | exact absurd ⟨ha, hb⟩ (h i)

lemma pow_two_of_and_pred : ∀ n, 1 ≤ n → n &&& (n - 1) = 0 → ∃ k, n = 2 ^ k := by
  intro n
  induction n using Nat.strong_induction_on with
  | _ n ih =>
    intro hn h
    rcases Nat.mod_two_eq_zero_or_one n with hpar | hpar
    · -- n even, so n = 2 * (n / 2) with n / 2 ≥ 1
      have hm : 1 ≤ n / 2 := by omega
      have hhalf : (n - 1) / 2 = n / 2 - 1 := by omega
      have hsub : (n / 2) &&& (n / 2 - 1) = 0 := by
        rw [and_eq_zero_iff_testBit]
        intro i ⟨ha, hb⟩
        have h1 : n.testBit (i + 1) = true := by rw [Nat.testBit_add_one]; exact ha
        have h2 : (n - 1).testBit (i + 1) = true := by
          rw [Nat.testBit_add_one, hhalf]; exact hb
        exact (and_eq_zero_iff_testBit n (n - 1)).mp h (i + 1) ⟨h1, h2⟩
      obtain ⟨k, hk⟩ := ih (n / 2) (Nat.div_lt_self (by omega) (by omega)) hm hsub
      refine ⟨k + 1, ?_⟩
      rw [pow_succ, ← hk]
      omega
    · -- n odd: if n > 1 then n / 2 ≠ 0 has a set bit shared with (n - 1) / 2
      by_cases h1 : n = 1
      · exact ⟨0, by omega⟩
      · exfalso
        have hm : n / 2 ≠ 0 := by omega
        obtain ⟨i, hi⟩ := exists_testBit_of_ne_zero (n / 2) hm
        have hhalf : (n - 1) / 2 = n / 2 := by omega
        have ha : n.testBit (i + 1) = true := by rw [Nat.testBit_add_one]; exact hi
        have hb : (n - 1).testBit (i + 1) = true := by
          rw [Nat.testBit_add_one, hhalf]; exact hi
        exact (and_eq_zero_iff_testBit n (n - 1)).mp h (i + 1) ⟨ha, hb⟩

lemma and_pred_of_pow_two (k : Nat) : (2 ^ k) &&& (2 ^ k - 1) = 0 := by
  rw [and_eq_zero_iff_testBit]
  intro i ⟨ha, hb⟩
  rw [Nat.testBit_two_pow] at ha
  rw [Nat.testBit_two_pow_sub_one] at hb
  have h1 : k = i := of_decide_eq_true ha
  have h2 : i < k := of_decide_eq_true hb
  omega

lemma is_power_of_two_iff (n : Nat) : is_power_of_two n = true ↔ ∃ k, n = 2 ^ k := by
  unfold is_power_of_two
  rw [Bool.and_eq_true, beq_iff_eq, bne_iff_ne]
  constructor
  · rintro ⟨hand, hne⟩
    exact pow_two_of_and_pred n (by omega) hand
  · rintro ⟨k, rfl⟩
    refine ⟨and_pred_of_pow_two k, ?_⟩
    have := Nat.pos_pow_of_pos k (show 0 < 2 by omega)
    omega

lemma isPow2Spec_iff (n : Nat) : isPow2Spec n = true ↔ ∃ k, n = 2 ^ k := by
  unfold isPow2Spec
  rw [List.any_eq_true]
  constructor
  · rintro ⟨k, _, hk⟩
    exact ⟨k, by exact of_decide_eq_true hk⟩
  · rintro ⟨k, rfl⟩
    refine ⟨k, List.mem_range.mpr ?_, by simp⟩
    have := Nat.lt_two_pow k
    omega

lemma is_power_of_two_eq_isPow2Spec (n : Nat) : is_power_of_two n = isPow2Spec n := by
  rw [Bool.eq_iff_iff, is_power_of_two_iff, isPow2Spec_iff]

/-! ## Parsing big-endian digits with `Nat.ofDigits` -/

lemma ofBitsBE_eq_ofDigits (l : List Nat) : ofBitsBE l = Nat.ofDigits 2 l.reverse := by
  induction l using List.reverseRecOn with
  | nil => simp [ofBitsBE, Nat.ofDigits_nil]
  | append_singleton l b ih =>
    rw [ofBitsBE_append, List.reverse_append, List.reverse_singleton, List.singleton_append,
      Nat.ofDigits_cons, ih]
    ring

/-! ## Fletcher checksum field -/

lemma fletcherChecksumField_lt (payload : List Nat) :
    ((fletcherSums payload).2 <<< (16 / 2) ||| (fletcherSums payload).1) &&& ((1 <<< 16) - 1) <
      2 ^ 16 := by
  have h := Nat.and_le_right
    (n := (fletcherSums payload).2 <<< (16 / 2) ||| (fletcherSums payload).1)
    (m := (1 <<< 16) - 1)
  rw [Nat.one_shiftLeft] at h ⊢
  have : 0 < 2 ^ 16 := by positivity
  omega

lemma fletcherChecksumField_length (payload : List Nat) :
    (fletcherChecksumField payload).length = 16 := by
  unfold fletcherChecksumField
  exact pyBinFormat_length _ 16 (by omega) (fletcherChecksumField_lt payload)

/-! ## Validator character sets -/

lemma toFinset_of_binary (s : List Char) (hne : s ≠ []) (hbin : ∀ c ∈ s, c = '0' ∨ c = '1') :
    s.toFinset = {'0'} ∨ s.toFinset = {'1'} ∨ s.toFinset = ({'0', '1'} : Finset Char) := by
  by_cases h0 : '0' ∈ s
  · by_cases h1 : '1' ∈ s
    · refine Or.inr (Or.inr ?_)
      rw [Finset.ext_iff]
      intro a
      rw [List.mem_toFinset, Finset.mem_insert, Finset.mem_singleton]
      constructor
      · intro ha; exact hbin a ha
      · rintro (rfl | rfl) <;> assumption
    · refine Or.inl ?_
      rw [Finset.ext_iff]
      intro a
      rw [List.mem_toFinset, Finset.mem_singleton]
      constructor
      · intro ha
        rcases hbin a ha with rfl | rfl
        · rfl
        · exact absurd ha h1
      · rintro rfl; exact h0
  · by_cases h1 : '1' ∈ s
    · refine Or.inr (Or.inl ?_)
      rw [Finset.ext_iff]
      intro a
      rw [List.mem_toFinset, Finset.mem_singleton]
      constructor
      · intro ha
        rcases hbin a ha with rfl | rfl
        · exact absurd ha h0
        · rfl
      · rintro rfl; exact h1
    · exfalso
      obtain ⟨c, hc⟩ := List.exists_mem_of_ne_nil s hne
      rcases hbin c hc with rfl | rfl
      · exact h0 hc
      · exact h1 hc

lemma getD_mem_of_lt (l : List Nat) : ∀ n, n < l.length → l.getD n 0 ∈ l := by
  induction l with
  | nil => intro n hn; simp at hn
  | cons x xs ih =>
    intro n hn
    cases n with
    | zero => rw [List.getD_cons_zero]; exact List.mem_cons_self _ _
    | succ n =>
      rw [List.getD_cons_succ]
      exact List.mem_cons_of_mem _ (ih n (by simpa using hn))

lemma hamming_eq_of_syndrome_some (input : List Nat) (x : Nat)
    (h : hammingSyndrome input.reverse = some x) :
    hamming input =
      if x ≠ 0 then
        if x ≥ input.reverse.length then some .multipleErrors
        else some (.corrected x ((flipBit input.reverse (x - 1)).reverse))
      else some (.errorFree input.reverse.reverse) := by
  unfold hamming
  simp only []
  rw [h]

lemma hammingServer_eq_of_syndrome_some (input : List Nat) (x : Nat)
    (h : hammingSyndrome input.reverse = some x) :
    hammingServer input =
      if x ≠ 0 then
        if x ≥ input.reverse.length then some .multipleErrors
        else some (.corrected x ((flipBit input.reverse (x - 1)).reverse))
      else
        some (.text (binary_to_string (chunks8 ((List.range input.reverse.length).filterMap
          (fun i => if is_power_of_two (i + 1) then none
            else some (input.reverse.getD i 0)))))) := by
  unfold hammingServer
  simp only []
  rw [h]

lemma hamming_eq_none_of_syndrome_none (input : List Nat)
    (h : hammingSyndrome input.reverse = none) : hamming input = none := by
  unfold hamming
  simp only []
  rw [h]

/-! ## Claim theorems -/

/-- C4: for every length ≥ 1, `getParityBits length` is the smallest
non-negative `p` with `2^p ≥ length + p + 1`, and `getParityBits` is
monotonically non-decreasing in the length. -/
theorem getParityBits_minimal_and_mono (length : Nat) (h : 1 ≤ length) :
    (length + getParityBits length + 1 ≤ 2 ^ getParityBits length ∧
      ∀ q, length + q + 1 ≤ 2 ^ q → getParityBits length ≤ q) ∧
    ∀ M, length ≤ M → getParityBits length ≤ getParityBits M := by
  refine ⟨⟨getParityBits_cond length, fun q hq => getParityBits_min length q hq⟩, ?_⟩
  intro M hM
  apply getParityBits_min
  have := getParityBits_cond M
  omega

/-- Witness for C4 at `length = 7` (where the loop must go all the way to
`p = 4`). -/
theorem getParityBits_minimal_and_mono_witness :
    7 + getParityBits 7 + 1 ≤ 2 ^ getParityBits 7 :=
  ((getParityBits_minimal_and_mono 7 (by decide)).1).1

/-- C5: on every binary input with at least one `1` bit, the tabular
column-XOR syndrome equals the flat bitwise XOR of all 1-indexed positions
holding a `1`. -/
theorem hammingSyndrome_eq_flatSyndrome (s : List Nat)
    (h : ∃ i, i < s.length ∧ s.getD i 0 = 1) :
    hammingSyndrome s = some (flatSyndrome s) :=
  hammingSyndrome_eq_flat s h

/-- Witness for C5 on the concrete string `101`. -/
theorem hammingSyndrome_eq_flatSyndrome_witness :
    hammingSyndrome [1, 0, 1] = some (flatSyndrome [1, 0, 1]) :=
  hammingSyndrome_eq_flatSyndrome [1, 0, 1] ⟨0, by decide, rfl⟩

/-- C2: the all-zero string of length 5 passes the validator, but `hamming`
raises an uncaught `TypeError` on it (`reduce` over an empty column) instead of
reporting the error-free message with syndrome 0 that the spec promises. -/
theorem hamming_all_zero_raises :
    validateInputString ['0', '0', '0', '0', '0'] = true ∧
    hamming [0, 0, 0, 0, 0] = none := by
  constructor
  · decide
  · decide

/-- C3: for a non-empty input whose syndrome computation yields `x`, the
decision of `hamming` is exactly: `x = 0` reports the input error-free;
`0 < x < length` reports a correctable error at position `x` with that bit
flipped in place (in the reversed view); `x ≥ length` reports possible multiple
errors with no payload. -/
theorem hamming_decision_by_syndrome (input : List Nat) (x : Nat)
    (hne : input ≠ []) (h : hammingSyndrome input.reverse = some x) :
    (x = 0 → hamming input = some (.errorFree input)) ∧
    (0 < x → x < input.length →
      hamming input = some (.corrected x ((flipBit input.reverse (x - 1)).reverse))) ∧
    (input.length ≤ x → hamming input = some .multipleErrors) := by
  have hlen : input.reverse.length = input.length := List.length_reverse input
  have hpos : 0 < input.length := List.length_pos.mpr hne
  rw [hamming_eq_of_syndrome_some input x h]
  refine ⟨?_, ?_, ?_⟩
  · intro hx
    subst hx
    rw [if_neg (by simp), List.reverse_reverse]
  · intro h1 h2
    rw [if_pos (by omega), if_neg (by rw [hlen]; omega)]
  · intro h3
    rw [if_pos (by omega), if_pos (by rw [hlen]; omega)]

/-- Witness for C3: the corrected branch on the concrete input `110000`
(syndrome 3). -/
theorem hamming_decision_by_syndrome_witness :
    hamming [1, 1, 0, 0, 0, 0] =
      some (.corrected 3 ((flipBit ([1, 1, 0, 0, 0, 0] : List Nat).reverse (3 - 1)).reverse)) :=
  (hamming_decision_by_syndrome [1, 1, 0, 0, 0, 0] 3 (by decide) (by decide)).2.1
    (by decide) (by decide)

/-- C1 (amended to `k < length`): flipping bit `k` (1-indexed, reversed view,
`k` strictly below the string length) of a validly encoded binary string makes
`hamming` compute syndrome `k` and return the pre-flip string as the
correction. -/
theorem hamming_single_flip_corrects (orig : List Nat) (k : Nat)
    (hbits : ∀ b ∈ orig, b = 0 ∨ b = 1)
    (hvalid : hammingSyndrome orig.reverse = some 0)
    (hk1 : 1 ≤ k) (hkL : k < orig.length) :
    hammingSyndrome (flipBit orig.reverse (k - 1)) = some k ∧
    hamming ((flipBit orig.reverse (k - 1)).reverse) = some (.corrected k orig) := by
  set s := orig.reverse with hs
  have hslen : s.length = orig.length := List.length_reverse orig
  have hjlt : k - 1 < s.length := by omega
  have hbit_j : s.getD (k - 1) 0 = 0 ∨ s.getD (k - 1) 0 = 1 := by
    have hmem : s.getD (k - 1) 0 ∈ s := getD_mem_of_lt s (k - 1) hjlt
    rw [hs, List.mem_reverse] at hmem
    exact hbits _ hmem
  obtain ⟨i0, hi0, hb0⟩ := hammingSyndrome_some_imp s 0 hvalid
  have hflat0 : flatSyndrome s = 0 := by
    have heq := hammingSyndrome_eq_flat s ⟨i0, hi0, hb0⟩
    rw [hvalid] at heq
    exact (Option.some_inj.mp heq).symm
  have hflat' : flatSyndrome (flipBit s (k - 1)) = k := by
    rw [flatSyndrome_flip s (k - 1) hjlt hbit_j, hflat0, Nat.zero_xor]
    omega
  have hex' : ∃ i, i < (flipBit s (k - 1)).length ∧ (flipBit s (k - 1)).getD i 0 = 1 := by
    by_contra hc
    push_neg at hc
    have := flatSyndrome_zero_of_no_ones (flipBit s (k - 1)) hc
    omega
  have hsynd' : hammingSyndrome (flipBit s (k - 1)) = some k := by
    rw [hammingSyndrome_eq_flat _ hex', hflat']
  refine ⟨hsynd', ?_⟩
  rw [hamming_eq_of_syndrome_some _ k (by rw [List.reverse_reverse]; exact hsynd')]
  rw [List.reverse_reverse]
  rw [if_pos (by omega), if_neg (by rw [flipBit_length, hslen]; omega)]
  rw [flipBit_flipBit s (k - 1) hjlt hbit_j, hs, List.reverse_reverse]

/-- Witness for C1 on the concrete valid codeword `110100` with `k = 3`. -/
theorem hamming_single_flip_corrects_witness :
    hammingSyndrome (flipBit ([1, 1, 0, 1, 0, 0] : List Nat).reverse (3 - 1)) = some 3 ∧
    hamming ((flipBit ([1, 1, 0, 1, 0, 0] : List Nat).reverse (3 - 1)).reverse) =
      some (.corrected 3 [1, 1, 0, 1, 0, 0]) :=
  hamming_single_flip_corrects [1, 1, 0, 1, 0, 0] 3 (by decide) (by decide)
    (by decide) (by decide)

/-- C1 fails as stated when the flipped position equals the string length:
`110100` is validly encoded (syndrome 0), yet flipping bit 6 (1-indexed,
reversed view) makes `hamming` report "multiple errors" rather than a
correctable error at position 6. -/
theorem hamming_single_flip_cex :
    hammingSyndrome ([1, 1, 0, 1, 0, 0] : List Nat).reverse = some 0 ∧
    hamming ((flipBit ([1, 1, 0, 1, 0, 0] : List Nat).reverse (6 - 1)).reverse) =
      some HammingResult.multipleErrors ∧
    hamming ((flipBit ([1, 1, 0, 1, 0, 0] : List Nat).reverse (6 - 1)).reverse) ≠
      some (HammingResult.corrected 6 [1, 1, 0, 1, 0, 0]) := by
  refine ⟨by decide, by decide, by decide⟩

/-- C9: whenever `hamming` reports a correctable error at position `k`, the
returned message has the input's length and differs from the input exactly at
1-indexed position `k` of the reversed view. -/
theorem hamming_corrected_frame (input m : List Nat) (k : Nat)
    (h : hamming input = some (.corrected k m)) :
    m.length = input.length ∧ 1 ≤ k ∧ k < input.length ∧
    (∀ j, j < input.length → j ≠ k - 1 → m.reverse.getD j 0 = input.reverse.getD j 0) ∧
    m.reverse.getD (k - 1) 0 ≠ input.reverse.getD (k - 1) 0 := by
  have hlen : input.reverse.length = input.length := List.length_reverse input
  cases hx : hammingSyndrome input.reverse with
  | none => rw [hamming_eq_none_of_syndrome_none input hx] at h; exact Option.noConfusion h
  | some x =>
    rw [hamming_eq_of_syndrome_some input x hx] at h
    by_cases h0 : x ≠ 0
    · rw [if_pos h0] at h
      by_cases hge : x ≥ input.reverse.length
      · rw [if_pos hge] at h
        exact HammingResult.noConfusion (Option.some_inj.mp h)
      · rw [if_neg hge] at h
        have heq := Option.some_inj.mp h
        injection heq with hk hm
        subst hk
        subst hm
        have hjlt : x - 1 < input.reverse.length := by omega
        refine ⟨?_, by omega, by omega, ?_, ?_⟩
        · rw [List.length_reverse, flipBit_length, hlen]
        · intro j hj hjne
          rw [List.reverse_reverse]
          exact flipBit_getD_ne _ _ _ (fun hh => hjne hh.symm)
        · rw [List.reverse_reverse]
          exact flipBit_getD_changes _ _ hjlt
    · rw [if_neg h0] at h
      exact HammingResult.noConfusion (Option.some_inj.mp h)

/-- Witness for C9: the corrected decode of `110000` changes exactly bit 3 of
the reversed view. -/
theorem hamming_corrected_frame_witness :
    ([1, 1, 0, 1, 0, 0] : List Nat).reverse.getD (3 - 1) 0 ≠
      ([1, 1, 0, 0, 0, 0] : List Nat).reverse.getD (3 - 1) 0 :=
  (hamming_corrected_frame [1, 1, 0, 0, 0, 0] [1, 1, 0, 1, 0, 0] 3 (by decide)).2.2.2.2

/-- C6: appending the Fletcher-16 checksum field computed over a binary payload
and re-running `Fletcher16` on the combined string reproduces exactly the same
trailing field and reports the message valid. -/
theorem fletcher_roundtrip (payload : List Nat) (hb : ∀ b ∈ payload, b = 0 ∨ b = 1) :
    (Fletcher16 (payload ++ fletcherChecksumField payload)).original =
      fletcherChecksumField payload ∧
    (Fletcher16 (payload ++ fletcherChecksumField payload)).computed =
      fletcherChecksumField payload ∧
    (Fletcher16 (payload ++ fletcherChecksumField payload)).valid = true := by
  have hlen : (payload ++ fletcherChecksumField payload).length - 16 = payload.length := by
    rw [List.length_append, fletcherChecksumField_length]
    omega
  refine ⟨?_, ?_, ?_⟩
  · show (payload ++ fletcherChecksumField payload).drop
      ((payload ++ fletcherChecksumField payload).length - 16) = fletcherChecksumField payload
    rw [hlen, List.drop_left]
  · show fletcherChecksumField ((payload ++ fletcherChecksumField payload).take
      ((payload ++ fletcherChecksumField payload).length - 16)) = fletcherChecksumField payload
    rw [hlen, List.take_left]
  · show (fletcherChecksumField ((payload ++ fletcherChecksumField payload).take
        ((payload ++ fletcherChecksumField payload).length - 16)) ==
      (payload ++ fletcherChecksumField payload).drop
        ((payload ++ fletcherChecksumField payload).length - 16)) = true
    rw [hlen, List.take_left, List.drop_left, beq_self_eq_true]

/-- Witness for C6 on the concrete payload `101`. -/
theorem fletcher_roundtrip_witness :
    (Fletcher16 ([1, 0, 1] ++ fletcherChecksumField [1, 0, 1])).original =
      fletcherChecksumField [1, 0, 1] ∧
    (Fletcher16 ([1, 0, 1] ++ fletcherChecksumField [1, 0, 1])).computed =
      fletcherChecksumField [1, 0, 1] ∧
    (Fletcher16 ([1, 0, 1] ++ fletcherChecksumField [1, 0, 1])).valid = true :=
  fletcher_roundtrip [1, 0, 1] (by decide)

/-- C10: on any input shorter than 16 characters, `Fletcher16` takes the whole
input as the received checksum field and an empty payload, computes the
all-zero 16-character checksum, and always reports an integrity failure. -/
theorem fletcher_short_input (input : List Nat) (h : input.length < 16) :
    (Fletcher16 input).payload = [] ∧
    (Fletcher16 input).original = input ∧
    (Fletcher16 input).computed = List.replicate 16 0 ∧
    (Fletcher16 input).valid = false := by
  have hsub : input.length - 16 = 0 := by omega
  have hcomp : fletcherChecksumField ([] : List Nat) = List.replicate 16 0 := by decide
  refine ⟨?_, ?_, ?_, ?_⟩
  · show input.take (input.length - 16) = []
    rw [hsub, List.take_zero]
  · show input.drop (input.length - 16) = input
    rw [hsub, List.drop_zero]
  · show fletcherChecksumField (input.take (input.length - 16)) = List.replicate 16 0
    rw [hsub, List.take_zero, hcomp]
  · show (fletcherChecksumField (input.take (input.length - 16)) ==
      input.drop (input.length - 16)) = false
    rw [hsub, List.take_zero, List.drop_zero, hcomp, beq_eq_false_iff_ne]
    intro heq
    have hlen := congrArg List.length heq
    rw [List.length_replicate] at hlen
    omega

/-- Witness for C10 on the concrete two-character input `11`. -/
theorem fletcher_short_input_witness :
    (Fletcher16 [1, 1]).payload = [] ∧
    (Fletcher16 [1, 1]).original = [1, 1] ∧
    (Fletcher16 [1, 1]).computed = List.replicate 16 0 ∧
    (Fletcher16 [1, 1]).valid = false :=
  fletcher_short_input [1, 1] (by decide)

/-- C7 (amended: a short trailing chunk is read as a plain binary integer,
i.e. zero-padded on the *left*): every error-free server-side decode returns
the text obtained by stripping the bits at power-of-two positions from the
reversed string, grouping the remaining data bits into 8-bit chunks, and
reading each chunk as a binary code point. -/
theorem hammingServer_text_spec (input cs : List Nat)
    (h : hammingServer input = some (.text cs)) :
    cs = specTextPadLeft input := by
  cases hx : hammingSyndrome input.reverse with
  | none =>
    unfold hammingServer at h
    simp only [] at h
    rw [hx] at h
    exact Option.noConfusion h
  | some x =>
    rw [hammingServer_eq_of_syndrome_some input x hx] at h
    by_cases h0 : x ≠ 0
    · rw [if_pos h0] at h
      by_cases hge : x ≥ input.reverse.length
      · rw [if_pos hge] at h
        exact ServerResult.noConfusion (Option.some_inj.mp h)
      · rw [if_neg hge] at h
        exact ServerResult.noConfusion (Option.some_inj.mp h)
    · rw [if_neg h0] at h
      have heq := Option.some_inj.mp h
      injection heq with hcs
      unfold specTextPadLeft
      simp only []
      rw [← hcs]
      unfold binary_to_string
      simp only [is_power_of_two_eq_isPow2Spec]
      apply List.map_congr_left
      intro c _
      exact ofBitsBE_eq_ofDigits c

/-- Witness for C7 on the concrete error-free codeword `110100`. -/
theorem hammingServer_text_spec_witness :
    [7] = specTextPadLeft [1, 1, 0, 1, 0, 0] :=
  hammingServer_text_spec [1, 1, 0, 1, 0, 0] [7] (by decide)

/-- C7 fails as stated with right-padding: the error-free decode of `110100`
has the single 3-bit data chunk `111`, which the code reads as code point 7,
while right-zero-padding it to 8 bits would give code point 224. -/
theorem hammingServer_padRight_cex :
    hammingServer [1, 1, 0, 1, 0, 0] = some (ServerResult.text [7]) ∧
    specTextPadRight [1, 1, 0, 1, 0, 0] = [224] ∧
    hammingServer [1, 1, 0, 1, 0, 0] ≠
      some (ServerResult.text (specTextPadRight [1, 1, 0, 1, 0, 0])) := by
  refine ⟨by decide, by decide, by decide⟩

/-- C8: `validateInputString` accepts exactly the non-empty strings whose
character set is `{'0'}`, `{'1'}` or `{'0','1'}`; in particular the empty
string and every string with a character outside `{'0','1'}` are rejected. -/
theorem validateInputString_iff_charset (s : List Char) :
    validateInputString s = true ↔
      (s ≠ [] ∧ (s.toFinset = {'0'} ∨ s.toFinset = {'1'} ∨
        s.toFinset = ({'0', '1'} : Finset Char))) := by
  unfold validateInputString
  simp only [Bool.or_eq_true, decide_eq_true_eq]
  constructor
  · rintro ((h | h) | h)
    · have h0 : '0' ∈ s := by
        rw [← List.mem_toFinset, ← h]
        exact Finset.mem_insert.mpr (Or.inl rfl)
      exact ⟨List.ne_nil_of_mem h0, Or.inr (Or.inr h.symm)⟩
    · have h0 : '0' ∈ s := by
        rw [← List.mem_toFinset, h]
        exact Finset.mem_singleton.mpr rfl
      exact ⟨List.ne_nil_of_mem h0, Or.inl h⟩
    · have h1 : '1' ∈ s := by
        rw [← List.mem_toFinset, h]
        exact Finset.mem_singleton.mpr rfl
      exact ⟨List.ne_nil_of_mem h1, Or.inr (Or.inl h)⟩
  · rintro ⟨_, (h | h | h)⟩
    · exact Or.inl (Or.inr h)
    · exact Or.inr h
    · exact Or.inl (Or.inl h.symm)
